import Mathlib

/-!
Verification of the tabular reinforcement-learning core of the
Space_Invaders notebook corpus.

The Python sources are shallowly embedded: numpy arrays become functions
`ℕ → ℚ` (resp. `ℕ → ℕ → ℚ` for matrices), Python floats become exact
rationals (reals where `np.sqrt`/`np.log` force them), the opaque gym
environment becomes an explicit stepper record, and every source of
randomness (`np.random.choice`, `np.random.randn`, `np.random.beta`,
`np.random.rand`) becomes an oracle stream passed in as a parameter, so
that each theorem quantifies over all possible draws.  Loops of the form
`while True: ... if d: break` are embedded with explicit fuel and return
`Option`, `none` meaning the loop did not stop within the fuel.
-/

namespace SpaceInvaders

/-! ### numpy primitives used by the notebooks -/

/-- `np.max(f[0..n-1])`: fold of `max` over the range, seeded with `f 0`
(numpy raises on an empty array; all call sites have `n ≥ 1`). -/
def npMax {α : Type} [LinearOrder α] (f : ℕ → α) (n : ℕ) : α :=
  (List.range n).foldl (fun acc i => max acc (f i)) (f 0)

/-- `np.argmax(f[0..n-1])`: index of the first occurrence of the maximum
(numpy documents first-occurrence tie-breaking). -/
def npArgmax {α : Type} [LinearOrder α] (f : ℕ → α) (n : ℕ) : ℕ :=
  (List.range n).foldl (fun best i => if f best < f i then i else best) 0

/-- `np.where(f[0..n-1] == v)[0]`: the increasing list of indices where
`f` takes the value `v`. -/
def npWhereEq {α : Type} [LinearOrder α] (f : ℕ → α) (v : α) (n : ℕ) : List ℕ :=
  (List.range n).filter (fun i => f i = v)

theorem npMax_succ {α : Type} [LinearOrder α] (f : ℕ → α) (n : ℕ) :
    npMax f (n + 1) = max (npMax f n) (f n) := by
  simp [npMax, List.range_succ]

theorem npArgmax_succ {α : Type} [LinearOrder α] (f : ℕ → α) (n : ℕ) :
    npArgmax f (n + 1) =
      if f (npArgmax f n) < f n then n else npArgmax f n := by
  simp [npArgmax, List.range_succ]

theorem npArgmax_eq_npMax {α : Type} [LinearOrder α] (f : ℕ → α) (n : ℕ) :
    f (npArgmax f n) = npMax f n := by
  induction n with
  | zero => rfl
  | succ n ih =>
    rw [npMax_succ, npArgmax_succ]
    by_cases h : f (npArgmax f n) < f n
    · rw [if_pos h, ← ih, max_eq_right (le_of_lt h)]
    · rw [if_neg h, ih, max_eq_left (le_of_not_lt (by rw [← ih]; exact h))]

theorem npArgmax_lt {α : Type} [LinearOrder α] (f : ℕ → α) (n : ℕ)
    (hn : 0 < n) : npArgmax f n < n := by
  induction n with
  | zero => omega
  | succ n ih =>
    rw [npArgmax_succ]
    by_cases h : f (npArgmax f n) < f n
    · rw [if_pos h]; omega
    · rw [if_neg h]
      rcases Nat.eq_zero_or_pos n with h0 | h0
      · subst h0
        show npArgmax f 0 < 1
        exact Nat.lt_one_iff.mpr rfl
      · exact Nat.lt_succ_of_lt (ih h0)

theorem le_npMax {α : Type} [LinearOrder α] (f : ℕ → α) (n j : ℕ)
    (hj : j < n) : f j ≤ npMax f n := by
  induction n with
  | zero => omega
  | succ n ih =>
    rw [npMax_succ]
    rcases Nat.lt_succ_iff_lt_or_eq.mp hj with h | h
    · exact le_trans (ih h) (le_max_left _ _)
    · subst h; exact le_max_right _ _

theorem lt_npArgmax_lt {α : Type} [LinearOrder α] (f : ℕ → α) (n : ℕ) :
    ∀ j, j < npArgmax f n → f j < f (npArgmax f n) := by
  induction n with
  | zero =>
    intro j hj
    have h0 : npArgmax f 0 = 0 := rfl
    rw [h0] at hj
    omega
  | succ n ih =>
    intro j hj
    rw [npArgmax_succ] at hj ⊢
    by_cases h : f (npArgmax f n) < f n
    · rw [if_pos h] at hj ⊢
      have hle : f j ≤ npMax f n := le_npMax f n j hj
      rw [← npArgmax_eq_npMax] at hle
      exact lt_of_le_of_lt hle h
    · rw [if_neg h] at hj ⊢
      exact ih j hj

/-- `np.random.choice(l)` draws a uniform index into `l`; the embedding
receives the drawn index `k` as an oracle and reduces it modulo the
length, so a uniform `k` induces the uniform distribution on `l`. -/
def npChoice (l : List ℕ) (k : ℕ) : ℕ :=
  l.getD (k % l.length) 0

/-! ### Return calculator: `rtg` from the policy-gradient notebook -/

/-- `rtg(episode_rs)` fills `rtgs[i] = episode_rs[i] + (rtgs[i+1] if
i+1 < n else 0)` right to left; embedded structurally on lists. -/
def rtg : List ℚ → List ℚ
  | [] => []
  | r :: rest => (r + (rtg rest).headD 0) :: rtg rest

theorem rtg_length (rs : List ℚ) : (rtg rs).length = rs.length := by
  induction rs with
  | nil => rfl
  | cons r rest ih => simp [rtg, ih]

theorem sum_drop_getD (l : List ℚ) (i : ℕ) :
    (l.drop i).sum = l.getD i 0 + (l.drop (i + 1)).sum := by
  induction l generalizing i with
  | nil => simp
  | cons x xs ih =>
    cases i with
    | zero => simp
    | succ j => simpa using ih j

theorem headD_eq_getD (l : List ℚ) : l.headD 0 = l.getD 0 0 := by
  cases l <;> rfl

theorem rtg_getD_sum (rs : List ℚ) (i : ℕ) :
    (rtg rs).getD i 0 = (rs.drop i).sum := by
  induction rs generalizing i with
  | nil => simp [rtg]
  | cons r rest ih =>
    cases i with
    | zero =>
      show r + (rtg rest).headD 0 = ((r :: rest).drop 0).sum
      rw [List.drop_zero, List.sum_cons, headD_eq_getD, ih 0, List.drop_zero]
    | succ j => simpa [rtg] using ih j

/-- C1: the return calculator `rtg` computes reward-to-go by the backward
recurrence with terminal value zero (`gamma = 1`): the output has the
length of the input, satisfies `G[t] = reward[t] + G[t+1]` with `G`
read as `0` past the end, and `rtg(rs)[i]` is the sum of
`rs[i], ..., rs[n-1]` at every position `i`. -/
theorem rtg_backward_recurrence (rs : List ℚ) (i : ℕ) :
    (rtg rs).length = rs.length ∧
    (rtg rs).getD i 0 = rs.getD i 0 + (rtg rs).getD (i + 1) 0 ∧
    (rtg rs).getD i 0 = (rs.drop i).sum := by
  refine ⟨rtg_length rs, ?_, rtg_getD_sum rs i⟩
  rw [rtg_getD_sum rs i, rtg_getD_sum rs (i + 1), sum_drop_getD]

/-! ### Environment model and the trajectory sampler `run_game` -/

/-- The opaque gym environment: `reset()` yields the initial state and
`step(action)` yields `(state, reward, done)`.  The stepper additionally
receives the current time index so that any realization of a stochastic
environment is covered. -/
structure Env where
  nS : ℕ
  nA : ℕ
  reset : ℕ
  step : ℕ → ℕ → ℕ → ℕ × ℚ × Bool

/-- Body of the `while True` loop of `run_game`: select the action
drawn by the policy (the realized draws are the stream `acts`), step the
environment, record `(s, a, r)`, advance, and stop exactly when `done`.
`fuel` bounds the unrolling; `none` means the loop has not stopped. -/
def runGameAux (env : Env) (acts : ℕ → ℕ) :
    ℕ → ℕ → ℕ → Option (List (ℕ × ℕ × ℚ))
  | 0, _, _ => none
  | fuel + 1, t, s =>
      let a := acts t
      let out := env.step t s a
      if out.2.2 then some [(s, a, out.2.1)]
      else (runGameAux env acts fuel (t + 1) out.1).map
        (fun tr => (s, a, out.2.1) :: tr)

/-- `run_game(env, policy)` from the Monte-Carlo notebook. -/
def run_game (env : Env) (acts : ℕ → ℕ) (fuel : ℕ) :
    Option (List (ℕ × ℕ × ℚ)) :=
  runGameAux env acts fuel 0 env.reset

theorem runGameAux_spec (env : Env) (acts : ℕ → ℕ) :
    ∀ fuel t s tr, runGameAux env acts fuel t s = some tr →
      0 < tr.length ∧
      (tr.getD 0 (0, 0, 0)).1 = s ∧
      (∀ j, j < tr.length →
        (tr.getD j (0, 0, 0)).2.1 = acts (t + j) ∧
        (tr.getD j (0, 0, 0)).2.2 =
          (env.step (t + j) (tr.getD j (0, 0, 0)).1 (acts (t + j))).2.1) ∧
      (∀ j, j + 1 < tr.length →
        (env.step (t + j) (tr.getD j (0, 0, 0)).1 (acts (t + j))).2.2 = false ∧
        (tr.getD (j + 1) (0, 0, 0)).1 =
          (env.step (t + j) (tr.getD j (0, 0, 0)).1 (acts (t + j))).1) ∧
      (env.step (t + (tr.length - 1)) (tr.getD (tr.length - 1) (0, 0, 0)).1
        (acts (t + (tr.length - 1)))).2.2 = true := by
  intro fuel
  induction fuel with
  | zero => intro t s tr h; simp [runGameAux] at h
  | succ fuel ih =>
    intro t s tr h
    simp only [runGameAux] at h
    by_cases hd : (env.step t s (acts t)).2.2
    · rw [if_pos hd] at h
      obtain rfl : [(s, acts t, (env.step t s (acts t)).2.1)] = tr :=
        Option.some.inj h
      refine ⟨by simp, by simp, ?_, ?_, ?_⟩
      · intro j hj
        simp only [List.length_singleton] at hj
        have hj0 : j = 0 := by omega
        subst hj0
        simp
      · intro j hj
        simp only [List.length_singleton] at hj
        omega
      · simpa using hd
    · rw [if_neg hd] at h
      cases hrec : runGameAux env acts fuel (t + 1) (env.step t s (acts t)).1 with
      | none => rw [hrec] at h; simp at h
      | some tr' =>
        rw [hrec] at h
        obtain rfl : (s, acts t, (env.step t s (acts t)).2.1) :: tr' = tr :=
          Option.some.inj h
        obtain ⟨hlen, hhead, hrec3, hchain, hlast⟩ := ih (t + 1) _ tr' hrec
        refine ⟨by simp, by simp, ?_, ?_, ?_⟩
        · intro j hj
          cases j with
          | zero => simp
          | succ k =>
            have hk : k < tr'.length := by simpa using hj
            have ht : t + (k + 1) = (t + 1) + k := by omega
            simpa [ht] using hrec3 k hk
        · intro j hj
          cases j with
          | zero =>
            refine ⟨by simpa using hd, ?_⟩
            simpa using hhead
          | succ k =>
            have hk : k + 1 < tr'.length := by simpa using hj
            have ht : t + (k + 1) = (t + 1) + k := by omega
            simpa [ht] using hchain k hk
        · have hlen' : tr'.length = (tr'.length - 1) + 1 := by omega
          have ht : t + ((tr'.length + 1) - 1) = (t + 1) + (tr'.length - 1) := by
            omega
          have hgd : ((s, acts t, (env.step t s (acts t)).2.1) :: tr').getD
              (((s, acts t, (env.step t s (acts t)).2.1) :: tr').length - 1) (0, 0, 0) =
              tr'.getD (tr'.length - 1) (0, 0, 0) := by
            simp only [List.length_cons, Nat.add_sub_cancel]
            rw [hlen', List.getD_cons_succ, ← hlen']
          simp only [List.length_cons] at hgd ⊢
          rw [hgd, ht]
          exact hlast

/-- C9: whenever `run_game` returns a trace (the environment signaled
`done`) it is a finite non-empty list, every recorded transition
`(s, a, r)` carries the policy's action and the reward of the
corresponding `env.step` call, no step before the last one signaled
`done`, and the step producing the last transition did signal `done` —
no transition is appended after the terminal one. -/
theorem run_game_trace_terminal (env : Env) (acts : ℕ → ℕ) (fuel : ℕ)
    (tr : List (ℕ × ℕ × ℚ)) (h : run_game env acts fuel = some tr) :
    0 < tr.length ∧
    (∀ j, j < tr.length →
      (tr.getD j (0, 0, 0)).2.1 = acts j ∧
      (tr.getD j (0, 0, 0)).2.2 =
        (env.step j (tr.getD j (0, 0, 0)).1 (acts j)).2.1) ∧
    (∀ j, j + 1 < tr.length →
      (env.step j (tr.getD j (0, 0, 0)).1 (acts j)).2.2 = false) ∧
    (env.step (tr.length - 1) (tr.getD (tr.length - 1) (0, 0, 0)).1
      (acts (tr.length - 1))).2.2 = true := by
  obtain ⟨h1, _, h3, h4, h5⟩ := runGameAux_spec env acts fuel 0 env.reset tr h
  refine ⟨h1, ?_, ?_, ?_⟩
  · intro j hj; simpa using h3 j hj
  · intro j hj; simpa using (h4 j hj).1
  · simpa using h5

/-! ### Q-learning: `q_step` and the training loop -/

/-- The notebook's global learning rate `lr = 0.8`. -/
def lr : ℚ := 4 / 5

/-- The notebook's global discount factor `gamma = 0.95`. -/
def gamma : ℚ := 19 / 20

/-- Action selected inside `q_step`:
`np.argmax(Q[s, :] + np.random.randn(1, env.nA) * sigma)`, with the
Gaussian draws supplied by the oracle `noise`. -/
def qStepAction (Q : ℕ → ℕ → ℚ) (nA : ℕ) (sigma : ℚ) (noise : ℕ → ℚ)
    (s : ℕ) : ℕ :=
  npArgmax (fun i => Q s i + noise i * sigma) nA

/-- `q_step(Q, env, sigma, s)`: select a noisy-greedy action, step the
environment once, apply the TD update
`Q[s,a] += lr * (r + gamma * max(Q[ss,:]) - Q[s,a])`, and return
`(Q, ss, r, d)`. -/
def q_step (Q : ℕ → ℕ → ℚ) (env : Env) (sigma : ℚ) (noise : ℕ → ℚ)
    (t s : ℕ) : (ℕ → ℕ → ℚ) × ℕ × ℚ × Bool :=
  let a := qStepAction Q env.nA sigma noise s
  let out := env.step t s a
  let delta := out.2.1 + gamma * npMax (Q out.1) env.nA - Q s a
  ((fun s' a' => if s' = s ∧ a' = a then Q s a + lr * delta else Q s' a'),
    out)

/-- C3: one step of Q-learning sets `Q[s,a]` to
`Q[s,a] + lr * (r + gamma * max(Q[ss,:]) - Q[s,a])` for the selected
action `a` and the observed `(ss, r)`, where `npMax` over `env.nA`
really is the maximum over the full action set of the successor state:
it dominates every action's value and is attained by one of them. -/
theorem q_step_bellman_update (Q : ℕ → ℕ → ℚ) (env : Env) (sigma : ℚ)
    (noise : ℕ → ℚ) (t s : ℕ) (hnA : 0 < env.nA) :
    (q_step Q env sigma noise t s).1 s (qStepAction Q env.nA sigma noise s) =
      Q s (qStepAction Q env.nA sigma noise s) +
        lr * ((env.step t s (qStepAction Q env.nA sigma noise s)).2.1 +
          gamma * npMax
            (Q (env.step t s (qStepAction Q env.nA sigma noise s)).1) env.nA -
          Q s (qStepAction Q env.nA sigma noise s)) ∧
    (∀ j, j < env.nA →
      Q (env.step t s (qStepAction Q env.nA sigma noise s)).1 j ≤
        npMax (Q (env.step t s (qStepAction Q env.nA sigma noise s)).1)
          env.nA) ∧
    (∃ j, j < env.nA ∧
      npMax (Q (env.step t s (qStepAction Q env.nA sigma noise s)).1) env.nA =
        Q (env.step t s (qStepAction Q env.nA sigma noise s)).1 j) := by
  refine ⟨?_, ?_, ?_⟩
  · simp [q_step]
  · intro j hj
    exact le_npMax _ env.nA j hj
  · exact ⟨npArgmax (Q (env.step t s (qStepAction Q env.nA sigma noise s)).1)
      env.nA, npArgmax_lt _ env.nA hnA, (npArgmax_eq_npMax _ env.nA).symm⟩

/-- A zero Q-table, used to instantiate the theorems on concrete data. -/
def Qzero : ℕ → ℕ → ℚ := fun _ _ => 0

/-- A concrete test environment that signals `done` with reward 1 on
every step. -/
def envTest : Env := ⟨1, 2, 0, fun _ _ _ => (0, 1, true)⟩

theorem q_step_bellman_update_witness :
    0 < envTest.nA ∧
    (q_step Qzero envTest 0 (fun _ => 0) 0 0).1 0
        (qStepAction Qzero envTest.nA 0 (fun _ => 0) 0) =
      Qzero 0 (qStepAction Qzero envTest.nA 0 (fun _ => 0) 0) +
        lr * ((envTest.step 0 0 (qStepAction Qzero envTest.nA 0 (fun _ => 0) 0)).2.1 +
          gamma * npMax
            (Qzero (envTest.step 0 0
              (qStepAction Qzero envTest.nA 0 (fun _ => 0) 0)).1) envTest.nA -
          Qzero 0 (qStepAction Qzero envTest.nA 0 (fun _ => 0) 0)) :=
  ⟨by decide,
    (q_step_bellman_update Qzero envTest 0 (fun _ => 0) 0 0 (by decide)).1⟩

/-- C10: `q_step` modifies only the entry `Q[s,a]` of the table for the
selected action `a` — every other entry is returned unchanged — and the
returned `(ss, r, d)` is exactly the result of the single `env.step`
call on the selected action. -/
theorem q_step_frame (Q : ℕ → ℕ → ℚ) (env : Env) (sigma : ℚ)
    (noise : ℕ → ℚ) (t s s' a' : ℕ)
    (h : ¬ (s' = s ∧ a' = qStepAction Q env.nA sigma noise s)) :
    (q_step Q env sigma noise t s).1 s' a' = Q s' a' ∧
    (q_step Q env sigma noise t s).2 =
      env.step t s (qStepAction Q env.nA sigma noise s) := by
  constructor
  · show (if s' = s ∧ a' = qStepAction Q env.nA sigma noise s then _
      else Q s' a') = Q s' a'
    exact if_neg h
  · rfl

theorem q_step_frame_witness :
    (¬ ((1 : ℕ) = 0 ∧ (0 : ℕ) = qStepAction Qzero envTest.nA 0 (fun _ => 0) 0)) ∧
    (q_step Qzero envTest 0 (fun _ => 0) 0 0).1 1 0 = Qzero 1 0 :=
  ⟨by decide, (q_step_frame Qzero envTest 0 (fun _ => 0) 0 0 1 0 (by decide)).1⟩

/-- Inner loop of the Q-learning training cell:
`for _ in range(nsteps): Q, s, r, d = q_step(...); rTot += r;
if d: break`.  The third component counts the number of `q_step` calls
actually performed. -/
def qEpisodeAux (env : Env) (sigma : ℚ) (noise : ℕ → ℕ → ℚ) :
    ℕ → ℕ → ℕ → (ℕ → ℕ → ℚ) → ℚ → ((ℕ → ℕ → ℚ) × ℚ × ℕ)
  | 0, _, _, Q, rTot => (Q, rTot, 0)
  | n + 1, t, s, Q, rTot =>
      if (q_step Q env sigma (noise t) t s).2.2.2 then
        ((q_step Q env sigma (noise t) t s).1,
          rTot + (q_step Q env sigma (noise t) t s).2.2.1, 1)
      else
        ((qEpisodeAux env sigma noise n (t + 1)
            (q_step Q env sigma (noise t) t s).2.1
            (q_step Q env sigma (noise t) t s).1
            (rTot + (q_step Q env sigma (noise t) t s).2.2.1)).1,
          (qEpisodeAux env sigma noise n (t + 1)
            (q_step Q env sigma (noise t) t s).2.1
            (q_step Q env sigma (noise t) t s).1
            (rTot + (q_step Q env sigma (noise t) t s).2.2.1)).2.1,
          (qEpisodeAux env sigma noise n (t + 1)
            (q_step Q env sigma (noise t) t s).2.1
            (q_step Q env sigma (noise t) t s).1
            (rTot + (q_step Q env sigma (noise t) t s).2.2.1)).2.2 + 1)

/-- C8 (amended): the episode loop of the Q-learning training cell
performs at most `nsteps` environment steps — the explicit `for` range
is the only step cap in the corpus; `run_game` itself carries no cap and
stops only on `done` (see the accompanying counterexample for an
environment on which it never stops). -/
theorem q_training_episode_step_cap (env : Env) (sigma : ℚ)
    (noise : ℕ → ℕ → ℚ) (nsteps : ℕ) :
    ∀ t s Q rTot,
      (qEpisodeAux env sigma noise nsteps t s Q rTot).2.2 ≤ nsteps := by
  induction nsteps with
  | zero => intro t s Q rTot; simp [qEpisodeAux]
  | succ n ih =>
    intro t s Q rTot
    simp only [qEpisodeAux]
    by_cases hd : (q_step Q env sigma (noise t) t s).2.2.2
    · rw [if_pos hd]
      show (1 : ℕ) ≤ n + 1
      omega
    · rw [if_neg hd]
      have h1 := ih (t + 1) (q_step Q env sigma (noise t) t s).2.1
        (q_step Q env sigma (noise t) t s).1
        (rTot + (q_step Q env sigma (noise t) t s).2.2.1)
      show (qEpisodeAux env sigma noise n (t + 1)
          (q_step Q env sigma (noise t) t s).2.1
          (q_step Q env sigma (noise t) t s).1
          (rTot + (q_step Q env sigma (noise t) t s).2.2.1)).2.2 + 1 ≤ n + 1
      omega

/-- An environment that never signals `done`. -/
def envLoop : Env := ⟨1, 1, 0, fun _ _ _ => (0, 0, false)⟩

theorem runGameAux_envLoop (acts : ℕ → ℕ) :
    ∀ fuel t s, runGameAux envLoop acts fuel t s = none := by
  intro fuel
  induction fuel with
  | zero => intro t s; rfl
  | succ n ih =>
    intro t s
    have hstep : envLoop.step t s (acts t) = (0, 0, (false : Bool)) := rfl
    simp only [runGameAux, hstep]
    simp [ih]

/-- C8 (counterexample): `run_game` has no step cap — on an environment
that never signals `done` the episode loop of the trajectory sampler
never stops, whatever fuel it is given, refuting the claim that the loop
terminates for every environment and policy. -/
theorem run_game_no_cap_counterexample :
    ¬ ∃ fuel tr, run_game envLoop (fun _ => 0) fuel = some tr := by
  rintro ⟨fuel, tr, h⟩
  rw [run_game, runGameAux_envLoop] at h
  exact Option.noConfusion h

theorem run_game_trace_terminal_witness :
    run_game envTest (fun _ => 0) 1 = some [(0, 0, 1)] ∧
    (envTest.step (([((0 : ℕ), (0 : ℕ), (1 : ℚ))]).length - 1)
      (([((0 : ℕ), (0 : ℕ), (1 : ℚ))]).getD
        (([((0 : ℕ), (0 : ℕ), (1 : ℚ))]).length - 1) (0, 0, 0)).1
      ((fun _ => 0) (([((0 : ℕ), (0 : ℕ), (1 : ℚ))]).length - 1))).2.2 = true :=
  ⟨rfl,
    (run_game_trace_terminal envTest (fun _ => 0) 1 [(0, 0, 1)] rfl).2.2.2⟩

/-! ### Greedy action selection and tie-breaking -/

/-- The list `np.where(Q[s,:] == max(Q[s,:]))[0]` of greedy maximizers
from `monte_carlo_e_soft`. -/
def maximizers (Q : ℕ → ℕ → ℚ) (s nA : ℕ) : List ℕ :=
  npWhereEq (Q s) (npMax (Q s) nA) nA

/-- The tie-broken arg-max
`max_idx = np.random.choice(np.where(Q[s,:] == max(Q[s,:]))[0])` of
`monte_carlo_e_soft`, with the uniform draw `k` supplied by an
oracle. -/
def mcesMaxIdx (Q : ℕ → ℕ → ℚ) (s nA k : ℕ) : ℕ :=
  npChoice (maximizers Q s nA) k

theorem mem_maximizers (Q : ℕ → ℕ → ℚ) (s nA m : ℕ) :
    m ∈ maximizers Q s nA ↔ m < nA ∧ Q s m = npMax (Q s) nA := by
  simp [maximizers, npWhereEq, List.mem_filter, List.mem_range]

theorem maximizers_ne_nil (Q : ℕ → ℕ → ℚ) (s nA : ℕ) (hnA : 0 < nA) :
    maximizers Q s nA ≠ [] :=
  List.ne_nil_of_mem ((mem_maximizers Q s nA _).mpr
    ⟨npArgmax_lt (Q s) nA hnA, npArgmax_eq_npMax (Q s) nA⟩)

theorem npChoice_mem (l : List ℕ) (k : ℕ) (hl : l ≠ []) :
    npChoice l k ∈ l := by
  have hlen : 0 < l.length := List.length_pos.mpr hl
  have hk : k % l.length < l.length := Nat.mod_lt _ hlen
  rw [npChoice, List.getD_eq_getElem l 0 hk]
  exact List.getElem_mem hk

theorem npChoice_surj (l : List ℕ) (m : ℕ) (hm : m ∈ l) :
    ∃ j, j < l.length ∧ npChoice l j = m := by
  obtain ⟨i, hi, hv⟩ := List.mem_iff_getElem.mp hm
  refine ⟨i, hi, ?_⟩
  rw [npChoice, Nat.mod_eq_of_lt hi, List.getD_eq_getElem l 0 hi, hv]

/-- C5 (amended): in `monte_carlo_e_soft` the greedy action is drawn
from the exact, duplicate-free list of maximizers of `Q[s,:]` — every
value of the uniform oracle index yields a maximizer and every maximizer
is selected by some index, so the tie-break is uniform over all
maximizers — whereas in `q_step` the action is `np.argmax` of the
noise-perturbed scores `Q[s,:] + noise * sigma`: it attains the maximum
of the perturbed scores (not of `Q[s,:]` itself when `sigma ≠ 0`) and
ties are broken deterministically in favor of the smallest index. -/
theorem greedy_selection_tie_breaking (Q : ℕ → ℕ → ℚ) (s nA k : ℕ)
    (sigma : ℚ) (noise : ℕ → ℚ) (hnA : 0 < nA) :
    mcesMaxIdx Q s nA k ∈ maximizers Q s nA ∧
    (∀ m, m ∈ maximizers Q s nA ↔ m < nA ∧ Q s m = npMax (Q s) nA) ∧
    (maximizers Q s nA).Nodup ∧
    (∀ m ∈ maximizers Q s nA, ∃ j, j < (maximizers Q s nA).length ∧
      mcesMaxIdx Q s nA j = m) ∧
    qStepAction Q nA sigma noise s < nA ∧
    Q s (qStepAction Q nA sigma noise s) +
        noise (qStepAction Q nA sigma noise s) * sigma =
      npMax (fun i => Q s i + noise i * sigma) nA ∧
    (∀ j, j < qStepAction Q nA sigma noise s →
      Q s j + noise j * sigma <
        Q s (qStepAction Q nA sigma noise s) +
          noise (qStepAction Q nA sigma noise s) * sigma) := by
  refine ⟨npChoice_mem _ k (maximizers_ne_nil Q s nA hnA),
    mem_maximizers Q s nA, ?_, ?_, npArgmax_lt _ nA hnA, ?_, ?_⟩
  · exact (List.nodup_range nA).filter _
  · intro m hm
    exact npChoice_surj _ m hm
  · exact npArgmax_eq_npMax (fun i => Q s i + noise i * sigma) nA
  · intro j hj
    exact lt_npArgmax_lt (fun i => Q s i + noise i * sigma) nA j hj

theorem greedy_selection_tie_breaking_witness :
    0 < 2 ∧ mcesMaxIdx Qzero 0 2 0 ∈ maximizers Qzero 0 2 :=
  ⟨by decide,
    (greedy_selection_tie_breaking Qzero 0 2 0 0 (fun _ => 0) (by decide)).1⟩

/-- C5 (counterexample): with the all-zero Q-table and `sigma = 0`, both
actions of a two-action row attain the maximum of `Q[s,:]`, yet the
`q_step` selector `np.argmax(Q[s,:] + noise * sigma)` returns action `0`
for every realization of the Gaussian draws — action `1` is a maximizer
that is never selected, so the greedy tie-break of `q_step` is not a
uniform random choice among the maximizers. -/
theorem greedy_tie_breaking_counterexample :
    (∀ noise : ℕ → ℚ, qStepAction Qzero 2 0 noise 0 = 0) ∧
    (1 : ℕ) ∈ maximizers Qzero 0 2 := by
  constructor
  · intro noise
    show npArgmax (fun i => Qzero 0 i + noise i * 0) 2 = 0
    simp only [npArgmax_succ, Qzero, mul_zero, add_zero, lt_self_iff_false,
      if_false]
    rfl
  · decide

/-! ### Thompson sampling for the Beta-Bernoulli bandit -/

/-- One round of the Thompson-sampling loop.  The state is the pair of
per-arm count vectors `(ks, ss)` (trials, successes); `betaDraw t a α β`
is the oracle for the Beta sample of arm `a` in round `t`, and `rand t`
the oracle for `np.random.rand()`.  Mirrors
`succ_probs = np.random.beta(alphas + ss, betas + ks - ss);
a = np.argmax(succ_probs); r = rand() < mus[a]; ks[a] += 1;
ss[a] += r`. -/
def thompsonStep (nA : ℕ) (alphas betas mus : ℕ → ℚ)
    (betaDraw : ℕ → ℕ → ℚ → ℚ → ℚ) (rand : ℕ → ℚ) (t : ℕ)
    (st : (ℕ → ℚ) × (ℕ → ℚ)) : ((ℕ → ℚ) × (ℕ → ℚ)) × ℕ :=
  let succProbs := fun a =>
    betaDraw t a (alphas a + st.2 a) (betas a + st.1 a - st.2 a)
  let a := npArgmax succProbs nA
  let r : Bool := decide (rand t < mus a)
  ((fun b => if b = a then st.1 b + 1 else st.1 b,
    fun b => if b = a then st.2 b + (if r then 1 else 0) else st.2 b), a)

/-- The Thompson simulation: play the bandit for `n` rounds starting
from `ks = ss = 0`, recording the action trace. -/
def thompsonLoop (nA : ℕ) (alphas betas mus : ℕ → ℚ)
    (betaDraw : ℕ → ℕ → ℚ → ℚ → ℚ) (rand : ℕ → ℚ) :
    ℕ → ((ℕ → ℚ) × (ℕ → ℚ)) × List ℕ
  | 0 => ((fun _ => 0, fun _ => 0), [])
  | n + 1 =>
      ((thompsonStep nA alphas betas mus betaDraw rand n
          (thompsonLoop nA alphas betas mus betaDraw rand n).1).1,
        (thompsonLoop nA alphas betas mus betaDraw rand n).2 ++
          [(thompsonStep nA alphas betas mus betaDraw rand n
              (thompsonLoop nA alphas betas mus betaDraw rand n).1).2])

/-- C7: in every Thompson-sampling round the per-arm sample is requested
from the Beta oracle with exactly the posterior parameters
`(alpha + successes[a], beta + trials[a] - successes[a])`, the selected
arm is the one whose sampled parameter attains the maximum over all
arms, and exactly the pulled arm's `(trialCount, successCount)` pair is
updated, once (`+1` trial, `+r` success), all other arms' pairs being
returned unchanged. -/
theorem thompson_step_posterior_update (nA : ℕ) (alphas betas mus : ℕ → ℚ)
    (betaDraw : ℕ → ℕ → ℚ → ℚ → ℚ) (rand : ℕ → ℚ) (t : ℕ)
    (ks ss : ℕ → ℚ) (hnA : 0 < nA) :
    (thompsonStep nA alphas betas mus betaDraw rand t (ks, ss)).2 =
      npArgmax
        (fun a => betaDraw t a (alphas a + ss a) (betas a + ks a - ss a))
        nA ∧
    (thompsonStep nA alphas betas mus betaDraw rand t (ks, ss)).2 < nA ∧
    (fun a => betaDraw t a (alphas a + ss a) (betas a + ks a - ss a))
        (thompsonStep nA alphas betas mus betaDraw rand t (ks, ss)).2 =
      npMax
        (fun a => betaDraw t a (alphas a + ss a) (betas a + ks a - ss a))
        nA ∧
    (∀ j, j < nA →
      betaDraw t j (alphas j + ss j) (betas j + ks j - ss j) ≤
        npMax
          (fun a => betaDraw t a (alphas a + ss a) (betas a + ks a - ss a))
          nA) ∧
    (thompsonStep nA alphas betas mus betaDraw rand t (ks, ss)).1.1
        (thompsonStep nA alphas betas mus betaDraw rand t (ks, ss)).2 =
      ks (thompsonStep nA alphas betas mus betaDraw rand t (ks, ss)).2 + 1 ∧
    (thompsonStep nA alphas betas mus betaDraw rand t (ks, ss)).1.2
        (thompsonStep nA alphas betas mus betaDraw rand t (ks, ss)).2 =
      ss (thompsonStep nA alphas betas mus betaDraw rand t (ks, ss)).2 +
        (if rand t <
            mus (thompsonStep nA alphas betas mus betaDraw rand t (ks, ss)).2
          then 1 else 0) ∧
    (∀ b, b ≠ (thompsonStep nA alphas betas mus betaDraw rand t (ks, ss)).2 →
      (thompsonStep nA alphas betas mus betaDraw rand t (ks, ss)).1.1 b =
          ks b ∧
      (thompsonStep nA alphas betas mus betaDraw rand t (ks, ss)).1.2 b =
          ss b) := by
  have hsel : (thompsonStep nA alphas betas mus betaDraw rand t (ks, ss)).2 =
      npArgmax
        (fun a => betaDraw t a (alphas a + ss a) (betas a + ks a - ss a))
        nA := rfl
  refine ⟨rfl, ?_, ?_, ?_, ?_, ?_, ?_⟩
  · rw [hsel]
    exact npArgmax_lt
      (fun a => betaDraw t a (alphas a + ss a) (betas a + ks a - ss a)) nA hnA
  · rw [hsel]
    exact npArgmax_eq_npMax
      (fun a => betaDraw t a (alphas a + ss a) (betas a + ks a - ss a)) nA
  · intro j hj
    exact le_npMax
      (fun a => betaDraw t a (alphas a + ss a) (betas a + ks a - ss a)) nA j hj
  · simp [thompsonStep]
  · simp [thompsonStep]
  · intro b hb
    simp only [thompsonStep] at hb
    simp [thompsonStep, hb]

theorem thompson_step_posterior_update_witness :
    0 < 2 ∧
    (thompsonStep 2 (fun _ => 1) (fun _ => 1) (fun _ => 1 / 2)
        (fun _ _ _ _ => 0) (fun _ => 0) 0 (fun _ => 0, fun _ => 0)).1.1
        (thompsonStep 2 (fun _ => 1) (fun _ => 1) (fun _ => 1 / 2)
          (fun _ _ _ _ => 0) (fun _ => 0) 0 (fun _ => 0, fun _ => 0)).2 =
      (fun _ : ℕ => (0 : ℚ))
          (thompsonStep 2 (fun _ => 1) (fun _ => 1) (fun _ => 1 / 2)
            (fun _ _ _ _ => 0) (fun _ => 0) 0 (fun _ => 0, fun _ => 0)).2 +
        1 :=
  ⟨by decide,
    (thompson_step_posterior_update 2 (fun _ => 1) (fun _ => 1)
      (fun _ => 1 / 2) (fun _ _ _ _ => 0) (fun _ => 0) 0 (fun _ => 0)
      (fun _ => 0) (by decide)).2.2.2.2.1⟩

/-! ### Monte-Carlo value estimation: `episode` and the training loop -/

/-- Body of the `while True` loop of `episode()`: step the environment
with a uniformly drawn action (realized draws in `acts`), append the
successor state to `state_trace`, accumulate `R += r`, stop on
`done`. -/
def episodeAux (env : Env) (acts : ℕ → ℕ) :
    ℕ → ℕ → ℕ → ℚ → List ℕ → Option (List ℕ × ℚ)
  | 0, _, _, _, _ => none
  | fuel + 1, t, s, R, stTrace =>
      if (env.step t s (acts t)).2.2 then
        some (stTrace ++ [(env.step t s (acts t)).1],
          R + (env.step t s (acts t)).2.1)
      else
        episodeAux env acts fuel (t + 1) (env.step t s (acts t)).1
          (R + (env.step t s (acts t)).2.1)
          (stTrace ++ [(env.step t s (acts t)).1])

/-- `episode()` from the Monte-Carlo notebook: returns the list of
visited states (initial state included) and the accumulated total
reward `R`. -/
def episode (env : Env) (acts : ℕ → ℕ) (fuel : ℕ) : Option (List ℕ × ℚ) :=
  episodeAux env acts fuel 0 env.reset 0 [env.reset]

/-- The per-step rewards collected by one run of the `episode()` loop,
used to state that the accumulated `R` is their sum. -/
def episodeRewards (env : Env) (acts : ℕ → ℕ) :
    ℕ → ℕ → ℕ → Option (List ℚ)
  | 0, _, _ => none
  | fuel + 1, t, s =>
      if (env.step t s (acts t)).2.2 then some [(env.step t s (acts t)).2.1]
      else (episodeRewards env acts fuel (t + 1) (env.step t s (acts t)).1).map
        (fun rs => (env.step t s (acts t)).2.1 :: rs)

theorem episodeAux_sum (env : Env) (acts : ℕ → ℕ) :
    ∀ fuel t s R0 stTrace tr R,
      episodeAux env acts fuel t s R0 stTrace = some (tr, R) →
      ∃ rs, episodeRewards env acts fuel t s = some rs ∧ R = R0 + rs.sum := by
  intro fuel
  induction fuel with
  | zero => intro t s R0 stTrace tr R h; simp [episodeAux] at h
  | succ fuel ih =>
    intro t s R0 stTrace tr R h
    simp only [episodeAux] at h
    by_cases hd : (env.step t s (acts t)).2.2
    · rw [if_pos hd] at h
      obtain ⟨-, hR⟩ := Prod.mk.injEq .. ▸ Option.some.inj h
      refine ⟨[(env.step t s (acts t)).2.1], ?_, ?_⟩
      · simp [episodeRewards, hd]
      · simp [← hR]
    · rw [if_neg hd] at h
      obtain ⟨rs, hrs, hR⟩ := ih (t + 1) (env.step t s (acts t)).1
        (R0 + (env.step t s (acts t)).2.1)
        (stTrace ++ [(env.step t s (acts t)).1]) tr R h
      refine ⟨(env.step t s (acts t)).2.1 :: rs, ?_, ?_⟩
      · simp [episodeRewards, hd, hrs]
      · rw [hR, List.sum_cons]; ring

/-- The numpy write `rewards[state_trace, i] = R`: every row indexed by
a visited state gets `R` in column `i`; all other entries are kept. -/
def mcUpdateColumn (rewards : ℕ → ℕ → ℚ) (stTrace : List ℕ) (i : ℕ)
    (R : ℚ) : ℕ → ℕ → ℚ :=
  fun s j => if s ∈ stTrace ∧ j = i then R else rewards s j

/-- The Monte-Carlo value-estimation loop from episode index `i`, for
`n` more episodes: `state_trace, R = episode();
rewards[state_trace, i] = R`.  `acts i` is the action stream of episode
`i`. -/
def mcLoopFrom (env : Env) (acts : ℕ → ℕ → ℕ) (fuel : ℕ) :
    ℕ → ℕ → (ℕ → ℕ → ℚ) → Option (ℕ → ℕ → ℚ)
  | _, 0, rewards => some rewards
  | i, n + 1, rewards =>
      match episode env (acts i) fuel with
      | none => none
      | some (tr, R) =>
          mcLoopFrom env acts fuel (i + 1) n (mcUpdateColumn rewards tr i R)

/-- The full Monte-Carlo value-estimation loop over `neps` episodes,
starting from the all-zero `rewards` matrix. -/
def mcLoop (env : Env) (acts : ℕ → ℕ → ℕ) (fuel neps : ℕ) :
    Option (ℕ → ℕ → ℚ) :=
  mcLoopFrom env acts fuel 0 neps (fun _ _ => 0)

theorem mcLoopFrom_spec (env : Env) (acts : ℕ → ℕ → ℕ) (fuel : ℕ) :
    ∀ n i rewards M, mcLoopFrom env acts fuel i n rewards = some M →
      (∀ s j, j < i → M s j = rewards s j) ∧
      (∀ j, i ≤ j → j < i + n → ∀ tr R,
        episode env (acts j) fuel = some (tr, R) →
        ∀ s, s ∈ tr → M s j = R) := by
  intro n
  induction n with
  | zero =>
    intro i rewards M h
    obtain rfl : rewards = M := Option.some.inj h
    exact ⟨fun s j _ => rfl, fun j h1 h2 => by omega⟩
  | succ n ih =>
    intro i rewards M h
    simp only [mcLoopFrom] at h
    cases hep : episode env (acts i) fuel with
    | none => rw [hep] at h; exact Option.noConfusion h
    | some trR =>
      rw [hep] at h
      obtain ⟨hstab, hwrite⟩ := ih (i + 1) (mcUpdateColumn rewards trR.1 i trR.2) M h
      constructor
      · intro s j hj
        rw [hstab s j (by omega)]
        simp only [mcUpdateColumn]
        rw [if_neg]
        rintro ⟨-, rfl⟩
        omega
      · intro j h1 h2 tr R hep2 s hs
        rcases Nat.lt_or_ge j (i + 1) with hji | hji
        · have hji' : j = i := by omega
          subst hji'
          rw [hep] at hep2
          obtain h3 := Option.some.inj hep2
          subst h3
          rw [hstab s j (by omega)]
          simp [mcUpdateColumn, hs]
        · exact hwrite j hji (by omega) tr R hep2 s hs

/-- C2: in the Monte-Carlo value-estimation loop, for every episode `i`
and every state `s` visited during that episode (initial state and all
successors), the recorded entry `rewards[s, i]` equals the episode's
total reward `R`, and that `R` is the sum of all per-step rewards of the
episode — not the reward-to-go from the state's first occurrence. -/
theorem mc_total_reward_assignment (env : Env) (acts : ℕ → ℕ → ℕ)
    (fuel neps : ℕ) (M : ℕ → ℕ → ℚ)
    (hM : mcLoop env acts fuel neps = some M) (i : ℕ) (hi : i < neps)
    (tr : List ℕ) (R : ℚ)
    (hep : episode env (acts i) fuel = some (tr, R)) :
    (∀ s, s ∈ tr → M s i = R) ∧
    (∃ rs, episodeRewards env (acts i) fuel 0 env.reset = some rs ∧
      R = rs.sum) := by
  constructor
  · intro s hs
    exact (mcLoopFrom_spec env acts fuel neps 0 _ M hM).2 i (Nat.zero_le i)
      (by omega) tr R hep s hs
  · obtain ⟨rs, hrs, hR⟩ := episodeAux_sum env (acts i) fuel 0 env.reset 0
      [env.reset] tr R hep
    exact ⟨rs, hrs, by rw [hR, zero_add]⟩

/-- The constant-zero action stream used to instantiate the MC loop on
concrete data. -/
def mcActs : ℕ → ℕ → ℕ := fun _ _ => 0

theorem mc_total_reward_assignment_witness :
    mcLoop envTest mcActs 1 1 =
      some (mcUpdateColumn (fun _ _ => 0) [0, 0] 0 (0 + 1)) ∧
    0 < 1 ∧
    episode envTest (mcActs 0) 1 = some ([0, 0], 0 + 1) ∧
    mcUpdateColumn (fun _ _ => 0) [0, 0] 0 (0 + 1) 0 0 = 0 + 1 :=
  ⟨rfl, by decide, rfl,
    (mc_total_reward_assignment envTest mcActs 1 1
        (mcUpdateColumn (fun _ _ => 0) [0, 0] 0 (0 + 1)) rfl 0 (by decide)
        [0, 0] (0 + 1) rfl).1 0 (by decide)⟩

/-! ### Epsilon-soft Monte-Carlo control: `monte_carlo_e_soft` -/

/-- The mutable state of `monte_carlo_e_soft`: the probability table
`policy`, the `Q`-table, and the per-pair accumulated `rewards` and
`visits` counters. -/
structure MCES where
  policy : ℕ → ℕ → ℚ
  Q : ℕ → ℕ → ℚ
  rew : ℕ → ℕ → ℚ
  vis : ℕ → ℕ → ℚ

/-- The table part of a first-visit update:
`rewards[s,a] += G; visits[s,a] += 1; Q[s,a] = rewards[s,a]/visits[s,a]`. -/
def mcesQupd (st : MCES) (s a : ℕ) (G : ℚ) : MCES :=
  ⟨st.policy,
    fun s' a' => if s' = s ∧ a' = a then (st.rew s a + G) / (st.vis s a + 1)
      else st.Q s' a',
    fun s' a' => if s' = s ∧ a' = a then st.rew s a + G else st.rew s' a',
    fun s' a' => if s' = s ∧ a' = a then st.vis s a + 1 else st.vis s' a'⟩

/-- The policy part of a first-visit update:
`policy[s,:] = eps/env.nA; policy[s,max_idx] += 1 - eps`. -/
def mcesPolicyUpdate (nA : ℕ) (eps : ℚ) (p : ℕ → ℕ → ℚ) (s m : ℕ) :
    ℕ → ℕ → ℚ :=
  fun s' a' => if s' = s then eps / (nA : ℚ) + (if a' = m then 1 - eps else 0)
    else p s' a'

/-- One first-visit update of `monte_carlo_e_soft` at pair `(s, a)` with
return `G`; `k` is the uniform oracle draw for the arg-max tie-break. -/
def mcesUpdate (nA : ℕ) (eps : ℚ) (st : MCES) (s a : ℕ) (G : ℚ) (k : ℕ) :
    MCES :=
  ⟨mcesPolicyUpdate nA eps (mcesQupd st s a G).policy s
      (mcesMaxIdx (mcesQupd st s a G).Q s nA k),
    (mcesQupd st s a G).Q, (mcesQupd st s a G).rew, (mcesQupd st s a G).vis⟩

/-- The backward scan `for i in reversed(range(len(episode)))` of
`monte_carlo_e_soft`: accumulate `G += r` and apply the first-visit
update whenever `(s, a)` does not occur in the strict prefix
`episode[:i]`. -/
def mcesEpisodeAux (nA : ℕ) (eps : ℚ) (ep : List (ℕ × ℕ × ℚ))
    (ks : ℕ → ℕ) : ℕ → ℚ → MCES → MCES
  | 0, _, st => st
  | i + 1, G, st =>
      mcesEpisodeAux nA eps ep ks i (G + (ep.getD i (0, 0, 0)).2.2)
        (if ((ep.getD i (0, 0, 0)).1, (ep.getD i (0, 0, 0)).2.1) ∈
            (ep.take i).map (fun x => (x.1, x.2.1)) then st
          else mcesUpdate nA eps st (ep.getD i (0, 0, 0)).1
            (ep.getD i (0, 0, 0)).2.1 (G + (ep.getD i (0, 0, 0)).2.2) (ks i))

/-- Process one recorded episode of `monte_carlo_e_soft`. -/
def mcesEpisode (nA : ℕ) (eps : ℚ) (ep : List (ℕ × ℕ × ℚ)) (ks : ℕ → ℕ)
    (st : MCES) : MCES :=
  mcesEpisodeAux nA eps ep ks ep.length 0 st

/-- Initial state of `monte_carlo_e_soft`:
`policy = np.full((nS, nA), 1/nA)` and all-zero tables. -/
def mcesInit (nA : ℕ) : MCES :=
  ⟨fun _ _ => 1 / (nA : ℚ), fun _ _ => 0, fun _ _ => 0, fun _ _ => 0⟩

/-- The episode loop of `monte_carlo_e_soft` from episode `i`, for `n`
more episodes; `acts i` and `ks i` are the oracle streams of episode
`i`. -/
def mcesLoop (env : Env) (eps : ℚ) (acts ks : ℕ → ℕ → ℕ) (fuel : ℕ) :
    ℕ → ℕ → MCES → Option MCES
  | _, 0, st => some st
  | i, n + 1, st =>
      match run_game env (acts i) fuel with
      | none => none
      | some ep =>
          mcesLoop env eps acts ks fuel (i + 1) n
            (mcesEpisode env.nA eps ep (ks i) st)

/-- `monte_carlo_e_soft(env, neps, eps)` from the Monte-Carlo
notebook. -/
def monte_carlo_e_soft (env : Env) (eps : ℚ) (acts ks : ℕ → ℕ → ℕ)
    (fuel neps : ℕ) : Option MCES :=
  mcesLoop env eps acts ks fuel 0 neps (mcesInit env.nA)

/-- The sum of the action-probability row of state `s`. -/
def rowSum (p : ℕ → ℕ → ℚ) (s nA : ℕ) : ℚ :=
  ∑ a in Finset.range nA, p s a

theorem rowSum_mcesInit (nA : ℕ) (hnA : 0 < nA) (s : ℕ) :
    rowSum (mcesInit nA).policy s nA = 1 := by
  have h0 : (nA : ℚ) ≠ 0 := Nat.cast_ne_zero.mpr (by omega)
  rw [rowSum]
  show (∑ _a in Finset.range nA, 1 / (nA : ℚ)) = 1
  rw [Finset.sum_const, Finset.card_range, nsmul_eq_mul, mul_one_div,
    div_self h0]

theorem rowSum_policyRow (nA : ℕ) (hnA : 0 < nA) (eps : ℚ) (m : ℕ)
    (hm : m < nA) :
    (∑ a in Finset.range nA,
      (eps / (nA : ℚ) + if a = m then 1 - eps else 0)) = 1 := by
  have h0 : (nA : ℚ) ≠ 0 := Nat.cast_ne_zero.mpr (by omega)
  rw [Finset.sum_add_distrib, Finset.sum_const, Finset.card_range,
    Finset.sum_ite_eq' (Finset.range nA) m (fun _ => 1 - eps),
    if_pos (Finset.mem_range.mpr hm), nsmul_eq_mul]
  have hc : (nA : ℚ) * (eps / nA) = eps := by field_simp
  rw [hc]
  ring

theorem mcesMaxIdx_lt (Q : ℕ → ℕ → ℚ) (s nA k : ℕ) (hnA : 0 < nA) :
    mcesMaxIdx Q s nA k < nA :=
  ((mem_maximizers Q s nA _).mp
    (npChoice_mem _ k (maximizers_ne_nil Q s nA hnA))).1

theorem rowSum_mcesPolicyUpdate (nA : ℕ) (hnA : 0 < nA) (eps : ℚ)
    (p : ℕ → ℕ → ℚ) (s m : ℕ) (hm : m < nA) (s' : ℕ)
    (hrow : rowSum p s' nA = 1) :
    rowSum (mcesPolicyUpdate nA eps p s m) s' nA = 1 := by
  by_cases hs : s' = s
  · subst hs
    have hterm : ∀ x, mcesPolicyUpdate nA eps p s' m s' x =
        eps / (nA : ℚ) + (if x = m then 1 - eps else 0) := fun x => by
      simp [mcesPolicyUpdate]
    rw [rowSum, Finset.sum_congr rfl fun x _ => hterm x]
    exact rowSum_policyRow nA hnA eps m hm
  · have hterm : ∀ x, mcesPolicyUpdate nA eps p s m s' x = p s' x :=
      fun x => by simp [mcesPolicyUpdate, hs]
    rw [rowSum, Finset.sum_congr rfl fun x _ => hterm x]
    exact hrow

theorem rowSum_mcesEpisodeAux (nA : ℕ) (hnA : 0 < nA) (eps : ℚ)
    (ep : List (ℕ × ℕ × ℚ)) (ks : ℕ → ℕ) :
    ∀ i G st, (∀ s', rowSum st.policy s' nA = 1) →
      ∀ s', rowSum (mcesEpisodeAux nA eps ep ks i G st).policy s' nA = 1 := by
  intro i
  induction i with
  | zero => intro G st h s'; exact h s'
  | succ i ih =>
    intro G st h s'
    simp only [mcesEpisodeAux]
    apply ih
    intro s2
    by_cases hmem : ((ep.getD i (0, 0, 0)).1, (ep.getD i (0, 0, 0)).2.1) ∈
        (ep.take i).map (fun x => (x.1, x.2.1))
    · rw [if_pos hmem]
      exact h s2
    · rw [if_neg hmem]
      exact rowSum_mcesPolicyUpdate nA hnA eps _ _ _
        (mcesMaxIdx_lt _ _ nA _ hnA) s2 (h s2)

theorem rowSum_mcesLoop (env : Env) (hnA : 0 < env.nA) (eps : ℚ)
    (acts ks : ℕ → ℕ → ℕ) (fuel : ℕ) :
    ∀ n i st stf, (∀ s', rowSum st.policy s' env.nA = 1) →
      mcesLoop env eps acts ks fuel i n st = some stf →
      ∀ s', rowSum stf.policy s' env.nA = 1 := by
  intro n
  induction n with
  | zero =>
    intro i st stf h hsome s'
    obtain rfl : st = stf := Option.some.inj hsome
    exact h s'
  | succ n ih =>
    intro i st stf h hsome s'
    simp only [mcesLoop] at hsome
    cases hrg : run_game env (acts i) fuel with
    | none => rw [hrg] at hsome; exact Option.noConfusion hsome
    | some ep =>
      rw [hrg] at hsome
      exact ih (i + 1) _ stf
        (rowSum_mcesEpisodeAux env.nA hnA eps ep (ks i) ep.length 0 st h)
        hsome s'

/-- C4: during epsilon-soft Monte-Carlo training every per-state row of
the action-probability table sums exactly to 1: it does for the initial
`np.full((nS, nA), 1/nA)` table, the property is preserved by every
backward-scan update (each rewritten row holds `eps/nA` for every action
plus an extra `1 - eps` on the tie-broken arg-max action), and hence it
holds for whatever state the training loop returns. -/
theorem e_soft_policy_rows_sum_to_one (env : Env) (eps : ℚ)
    (acts ks : ℕ → ℕ → ℕ) (fuel neps : ℕ) (hnA : 0 < env.nA) :
    (∀ s, rowSum (mcesInit env.nA).policy s env.nA = 1) ∧
    (∀ ep kss i G st, (∀ s, rowSum st.policy s env.nA = 1) →
      ∀ s, rowSum (mcesEpisodeAux env.nA eps ep kss i G st).policy s
        env.nA = 1) ∧
    (∀ st, monte_carlo_e_soft env eps acts ks fuel neps = some st →
      ∀ s, rowSum st.policy s env.nA = 1) := by
  refine ⟨fun s => rowSum_mcesInit env.nA hnA s, ?_, ?_⟩
  · intro ep kss i G st h s
    exact rowSum_mcesEpisodeAux env.nA hnA eps ep kss i G st h s
  · intro st hst s
    exact rowSum_mcesLoop env hnA eps acts ks fuel neps 0 (mcesInit env.nA)
      st (fun s' => rowSum_mcesInit env.nA hnA s') hst s

theorem e_soft_policy_rows_sum_to_one_witness :
    0 < envTest.nA ∧
    rowSum (mcesInit envTest.nA).policy 0 envTest.nA = 1 :=
  ⟨by decide,
    (e_soft_policy_rows_sum_to_one envTest (1 / 100) mcActs mcActs 1 1
      (by decide)).1 0⟩

/-! ### UCB: `expl_bonus` and the bandit simulation -/

/-- `expl_bonus(visits, delta) = np.sqrt(2 * np.log(1 / delta) / visits)`
from the UCB notebook. -/
noncomputable def expl_bonus (delta : ℝ) (visits : ℝ) : ℝ :=
  Real.sqrt (2 * Real.log (1 / delta) / visits)

/-- One round of the UCB simulation loop: pick
`argmax (rewards / visits + expl_bonus(visits))`, receive the realized
normal draw `draw t a`, and update the pulled arm's counters; the state
is `(visits, rewards)`. -/
noncomputable def ucbStep (nA : ℕ) (delta : ℝ) (draw : ℕ → ℕ → ℝ)
    (t : ℕ) (st : (ℕ → ℝ) × (ℕ → ℝ)) : ((ℕ → ℝ) × (ℕ → ℝ)) × ℕ :=
  let a := npArgmax
    (fun b => st.2 b / st.1 b + expl_bonus delta (st.1 b)) nA
  ((fun b => if b = a then st.1 b + 1 else st.1 b,
    fun b => if b = a then st.2 b + draw t a else st.2 b), a)

/-- The UCB simulation for `n` rounds, starting from
`visits = np.ones` and `rewards = np.zeros`, recording the action
trace `trace_a`. -/
noncomputable def ucbLoop (nA : ℕ) (delta : ℝ) (draw : ℕ → ℕ → ℝ) :
    ℕ → (((ℕ → ℝ) × (ℕ → ℝ)) × List ℕ)
  | 0 => ((fun _ => 1, fun _ => 0), [])
  | n + 1 =>
      ((ucbStep nA delta draw n (ucbLoop nA delta draw n).1).1,
        (ucbLoop nA delta draw n).2 ++
          [(ucbStep nA delta draw n (ucbLoop nA delta draw n).1).2])

theorem expl_bonus_nonneg (delta visits : ℝ) : 0 ≤ expl_bonus delta visits :=
  Real.sqrt_nonneg _

/-- C6 (amended): in the UCB simulation every arm's visit count is
initialized to one (`visits = np.ones`) and only ever incremented, so at
every round every count is at least 1 — in particular never 0, and the
division inside the exploration bonus `sqrt(2 ln(1/delta) / N[a])`
never divides by zero.  There is no infinite-priority rule for
zero-count arms in the code. -/
theorem ucb_visits_at_least_one (nA : ℕ) (delta : ℝ) (draw : ℕ → ℕ → ℝ)
    (n a : ℕ) :
    1 ≤ (ucbLoop nA delta draw n).1.1 a ∧
    (ucbLoop nA delta draw n).1.1 a ≠ 0 := by
  have h1 : ∀ m b, 1 ≤ (ucbLoop nA delta draw m).1.1 b := by
    intro m
    induction m with
    | zero => intro b; exact le_refl 1
    | succ m ih =>
      intro b
      show 1 ≤ (if b = (ucbStep nA delta draw m (ucbLoop nA delta draw m).1).2
        then (ucbLoop nA delta draw m).1.1 b + 1
        else (ucbLoop nA delta draw m).1.1 b)
      by_cases hb : b = (ucbStep nA delta draw m (ucbLoop nA delta draw m).1).2
      · rw [if_pos hb]
        linarith [ih b]
      · rw [if_neg hb]
        exact ih b
  exact ⟨h1 n a, by
    have := h1 n a
    intro h0
    rw [h0] at this
    linarith⟩

theorem npArgmax_two {α : Type} [LinearOrder α] (f : ℕ → α) :
    npArgmax f 2 = if f 0 < f 1 then 1 else 0 := by
  have h1 : npArgmax f 1 = 0 := by
    have h0 : npArgmax f 0 = 0 := rfl
    rw [show (1 : ℕ) = 0 + 1 from rfl, npArgmax_succ, h0]
    exact if_neg (lt_irrefl _)
  rw [show (2 : ℕ) = 1 + 1 from rfl, npArgmax_succ, h1]

theorem npArgmax_two_eq_zero {α : Type} [LinearOrder α] (f : ℕ → α)
    (h : ¬ (f 0 < f 1)) : npArgmax f 2 = 0 := by
  rw [npArgmax_two, if_neg h]

/-- C6 (counterexample): on the notebook's own two-armed instance
(`delta = 1/np.exp(4)`, counts initialized to one) there is a
realization of the reward draws — every pull returning 10 — under which
a run of 2 rounds (= the number of arms) pulls arm 0 twice and never
samples arm 1: in round 1 the tied scores are broken in favor of arm 0
by `np.argmax`, and the large observed reward then keeps arm 0's score
above arm 1's bonus `sqrt(8) < 3 < 5`.  This refutes the claim that
every arm is sampled at least once in any run of at least `|A|`
rounds. -/
theorem ucb_unvisited_arm_counterexample :
    (ucbLoop 2 (1 / Real.exp 4) (fun _ _ => (10 : ℝ)) 2).2 = [0, 0] := by
  have hlog : Real.log (1 / (1 / Real.exp 4)) = 4 := by
    rw [one_div_one_div, Real.log_exp]
  have hsel0 : (ucbStep 2 (1 / Real.exp 4) (fun _ _ => (10 : ℝ)) 0
      (ucbLoop 2 (1 / Real.exp 4) (fun _ _ => (10 : ℝ)) 0).1).2 = 0 :=
    npArgmax_two_eq_zero
      (fun b => (ucbLoop 2 (1 / Real.exp 4) (fun _ _ => (10 : ℝ)) 0).1.2 b /
        (ucbLoop 2 (1 / Real.exp 4) (fun _ _ => (10 : ℝ)) 0).1.1 b +
        expl_bonus (1 / Real.exp 4)
          ((ucbLoop 2 (1 / Real.exp 4) (fun _ _ => (10 : ℝ)) 0).1.1 b))
      (lt_irrefl _)
  have hv0 : (ucbLoop 2 (1 / Real.exp 4) (fun _ _ => (10 : ℝ)) 1).1.1 0 =
      1 + 1 := by
    show (if 0 = (ucbStep 2 (1 / Real.exp 4) (fun _ _ => (10 : ℝ)) 0
        (ucbLoop 2 (1 / Real.exp 4) (fun _ _ => (10 : ℝ)) 0).1).2
      then (1 : ℝ) + 1 else 1) = 1 + 1
    rw [hsel0, if_pos rfl]
  have hv1 : (ucbLoop 2 (1 / Real.exp 4) (fun _ _ => (10 : ℝ)) 1).1.1 1 =
      1 := by
    show (if 1 = (ucbStep 2 (1 / Real.exp 4) (fun _ _ => (10 : ℝ)) 0
        (ucbLoop 2 (1 / Real.exp 4) (fun _ _ => (10 : ℝ)) 0).1).2
      then (1 : ℝ) + 1 else 1) = 1
    rw [hsel0, if_neg (by omega)]
  have hr0 : (ucbLoop 2 (1 / Real.exp 4) (fun _ _ => (10 : ℝ)) 1).1.2 0 =
      0 + 10 := by
    show (if 0 = (ucbStep 2 (1 / Real.exp 4) (fun _ _ => (10 : ℝ)) 0
        (ucbLoop 2 (1 / Real.exp 4) (fun _ _ => (10 : ℝ)) 0).1).2
      then (0 : ℝ) + 10 else 0) = 0 + 10
    rw [hsel0, if_pos rfl]
  have hr1 : (ucbLoop 2 (1 / Real.exp 4) (fun _ _ => (10 : ℝ)) 1).1.2 1 =
      0 := by
    show (if 1 = (ucbStep 2 (1 / Real.exp 4) (fun _ _ => (10 : ℝ)) 0
        (ucbLoop 2 (1 / Real.exp 4) (fun _ _ => (10 : ℝ)) 0).1).2
      then (0 : ℝ) + 10 else 0) = 0
    rw [hsel0, if_neg (by omega)]
  have hb1 : expl_bonus (1 / Real.exp 4) 1 ≤ 3 := by
    rw [expl_bonus, hlog]
    have h9 : Real.sqrt 9 = 3 := by
      rw [show (9 : ℝ) = 3 ^ 2 by norm_num,
        Real.sqrt_sq (by norm_num : (0 : ℝ) ≤ 3)]
    calc Real.sqrt (2 * 4 / 1) ≤ Real.sqrt 9 :=
          Real.sqrt_le_sqrt (by norm_num)
      _ = 3 := h9
  have hlt : ¬ ((ucbLoop 2 (1 / Real.exp 4) (fun _ _ => (10 : ℝ)) 1).1.2 0 /
        (ucbLoop 2 (1 / Real.exp 4) (fun _ _ => (10 : ℝ)) 1).1.1 0 +
        expl_bonus (1 / Real.exp 4)
          ((ucbLoop 2 (1 / Real.exp 4) (fun _ _ => (10 : ℝ)) 1).1.1 0) <
      (ucbLoop 2 (1 / Real.exp 4) (fun _ _ => (10 : ℝ)) 1).1.2 1 /
        (ucbLoop 2 (1 / Real.exp 4) (fun _ _ => (10 : ℝ)) 1).1.1 1 +
        expl_bonus (1 / Real.exp 4)
          ((ucbLoop 2 (1 / Real.exp 4) (fun _ _ => (10 : ℝ)) 1).1.1 1)) := by
    rw [hv0, hv1, hr0, hr1]
    apply not_lt.mpr
    have e1 : (0 : ℝ) / 1 + expl_bonus (1 / Real.exp 4) 1 ≤ 3 := by
      have h00 : (0 : ℝ) / 1 = 0 := by norm_num
      rw [h00, zero_add]
      exact hb1
    have e2 : (5 : ℝ) ≤ ((0 : ℝ) + 10) / (1 + 1) +
        expl_bonus (1 / Real.exp 4) (1 + 1) := by
      have hnn := expl_bonus_nonneg (1 / Real.exp 4) ((1 : ℝ) + 1)
      have h5 : ((0 : ℝ) + 10) / (1 + 1) = 5 := by norm_num
      linarith
    linarith
  have hsel1 : (ucbStep 2 (1 / Real.exp 4) (fun _ _ => (10 : ℝ)) 1
      (ucbLoop 2 (1 / Real.exp 4) (fun _ _ => (10 : ℝ)) 1).1).2 = 0 :=
    npArgmax_two_eq_zero
      (fun b => (ucbLoop 2 (1 / Real.exp 4) (fun _ _ => (10 : ℝ)) 1).1.2 b /
        (ucbLoop 2 (1 / Real.exp 4) (fun _ _ => (10 : ℝ)) 1).1.1 b +
        expl_bonus (1 / Real.exp 4)
          ((ucbLoop 2 (1 / Real.exp 4) (fun _ _ => (10 : ℝ)) 1).1.1 b))
      hlt
  show ((([] : List ℕ) ++
      [(ucbStep 2 (1 / Real.exp 4) (fun _ _ => (10 : ℝ)) 0
        (ucbLoop 2 (1 / Real.exp 4) (fun _ _ => (10 : ℝ)) 0).1).2]) ++
      [(ucbStep 2 (1 / Real.exp 4) (fun _ _ => (10 : ℝ)) 1
        (ucbLoop 2 (1 / Real.exp 4) (fun _ _ => (10 : ℝ)) 1).1).2]) = [0, 0]
  rw [hsel0, hsel1]
  rfl

end SpaceInvaders
